import Mathlib

set_option synthInstance.maxSize 1024
set_option maxRecDepth 8000

/-!
Shallow embedding of Burrow's offset storage core (`offsets_store.go`).

The Go code keeps, per cluster, a broker table (topic to a partition-indexed
vector of `*BrokerOffset`) and a consumer table (group to topic to a
partition-indexed vector of `container/ring` rings of `*ConsumerOffset`).
We model:

* Go maps as association lists (`alookup` / `aupdate` / `aerase`), iterated in
  list order (a fixed sequentialization of Go's unspecified map order);
* partition vectors as `List (Option _)` (a `nil` pointer slot is `none`);
* a `container/ring` ring as its chronological list of written entries, newest
  last (capacity `intervals`): the slot before the cursor is the list's last
  element, the slot at the cursor is empty iff the list is shorter than the
  capacity, and writing at the cursor then advancing is append (dropping the
  oldest entry when full) - this matches how `offsets_store.go` uses the ring;
* a Go panic (nil dereference, index out of range, failed type assertion) as
  `none` of an `Option` result;
* the Go slice aliasing of `topicList = append(topicList, nil)` on a local
  variable: `make` returns a slice with capacity equal to its length, so the
  first `append` always reallocates, and the grown slice is never written back
  to the map; consequently growth and writes through the reallocated local
  slice are invisible in the stored table, while in-place mutation of an
  existing `*BrokerOffset` stays visible through the shared pointer.

Goroutine interleavings are not modelled: each handler runs atomically, which
is the behaviour the per-cluster locks enforce for a single in-flight handler.
-/

namespace Burrow

/-- Status constants of `offsets_store.go` (NOTFOUND, OK, WARN, ERR, STOP, STALL, REWIND). -/
inductive StatusConstant where
  | notfound
  | ok
  | warning
  | error
  | stop
  | stall
  | rewind
deriving DecidableEq, Repr

/-- Ingress record `PartitionOffset`. An empty `group` denotes a broker observation. -/
structure PartitionOffset where
  cluster : String
  topic : String
  partition : Int
  offset : Int
  timestamp : Int
  group : String
  topicPartitionCount : Int
deriving DecidableEq, Repr

/-- Stored broker head offset for one (cluster, topic, partition). -/
structure BrokerOffset where
  offset : Int
  timestamp : Int
deriving DecidableEq, Repr

/-- One ring slot: a stored consumer commit (possibly synthesized, `artificial`). -/
structure ConsumerOffset where
  offset : Int
  timestamp : Int
  lag : Int
  artificial : Bool
deriving DecidableEq, Repr

/-- A consumer ring, as the chronological list of its written entries (newest last). -/
abbrev ConsumerRing := List ConsumerOffset

/-- Per-cluster state: broker table and consumer table (locks are not modelled). -/
structure ClusterOffsets where
  broker : List (String × List (Option BrokerOffset))
  consumer : List (String × List (String × List (Option ConsumerRing)))
deriving DecidableEq, Repr

/-- The whole storage: cluster name to `ClusterOffsets`. -/
structure OffsetStorage where
  offsets : List (String × ClusterOffsets)
deriving DecidableEq, Repr

/-- The configuration the core consumes (`intervals`, `min-distance`, `expire-group`,
blacklists, cluster names). Blacklists are modelled as predicates; a disabled
blacklist is the constantly-false predicate, matching a `nil` regexp. -/
structure Config where
  intervals : Nat
  minDistance : Int
  expireGroup : Int
  groupBlacklist : String → Bool
  topicBlacklist : String → Bool
  clusters : List String

/-- Association-list lookup, first match wins (models Go map indexing). -/
def alookup {α : Type} : List (String × α) → String → Option α
  | [], _ => none
  | (k, v) :: rest, key => if k = key then some v else alookup rest key

/-- Association-list update/insert (models Go map assignment). -/
def aupdate {α : Type} : List (String × α) → String → α → List (String × α)
  | [], key, v => [(key, v)]
  | (k, w) :: rest, key, v =>
    if k = key then (k, v) :: rest else (k, w) :: aupdate rest key v

/-- Association-list deletion (models Go `delete`). -/
def aerase {α : Type} : List (String × α) → String → List (String × α)
  | [], _ => []
  | (k, w) :: rest, key => if k = key then rest else (k, w) :: aerase rest key

/-- Replace one cluster's state in the storage. -/
def updateCluster (st : OffsetStorage) (c : String) (cl : ClusterOffsets) : OffsetStorage :=
  ⟨aupdate st.offsets c cl⟩

/-- Replace one topic's broker vector in a cluster. -/
def setBroker (st : OffsetStorage) (c : String) (cl : ClusterOffsets) (t : String)
    (vec : List (Option BrokerOffset)) : OffsetStorage :=
  updateCluster st c { cl with broker := aupdate cl.broker t vec }

/-- Replace one topic's ring vector under a consumer group (persisting the lazily
created group map and topic vector, exactly the map writes the Go code performs). -/
def setConsumerVec (st : OffsetStorage) (c : String) (cl : ClusterOffsets) (g : String)
    (gm : List (String × List (Option ConsumerRing))) (t : String)
    (vec : List (Option ConsumerRing)) : OffsetStorage :=
  updateCluster st c { cl with consumer := aupdate cl.consumer g (aupdate gm t vec) }

/-- `addBrokerOffset`. `none` models a runtime panic.

The growth loop appends to the local variable `topicList`; since the stored
slice always has capacity equal to its length, any growth reallocates, and the
grown slice is never stored back into `clusterMap.broker`. Hence when growth
occurs, only an in-place mutation of an already-present `*BrokerOffset`
(shared pointer) is visible in the stored table; creating an entry in the
grown local slice is lost. Indexing `topicList[offset.Partition]` panics when
the partition is negative or at least the local (grown) length. -/
def addBrokerOffset (st : OffsetStorage) (po : PartitionOffset) : Option OffsetStorage :=
  match alookup st.offsets po.cluster with
  | none => some st
  | some cl =>
    match alookup cl.broker po.topic with
    | none =>
      if po.topicPartitionCount < 0 then none
      else if po.partition < 0 ∨ po.topicPartitionCount ≤ po.partition then none
      else
        some (setBroker st po.cluster cl po.topic
          ((List.replicate po.topicPartitionCount.toNat none).set po.partition.toNat
            (some ⟨po.offset, po.timestamp⟩)))
    | some l =>
      if po.partition < 0 ∨
          (if (l.length : Int) < po.topicPartitionCount then po.topicPartitionCount
            else (l.length : Int)) ≤ po.partition then
        none
      else if (l.length : Int) < po.topicPartitionCount then
        match l[po.partition.toNat]? with
        | some (some _) =>
          some (setBroker st po.cluster cl po.topic
            (l.set po.partition.toNat (some ⟨po.offset, po.timestamp⟩)))
        | _ => some st
      else
        some (setBroker st po.cluster cl po.topic
          (l.set po.partition.toNat (some ⟨po.offset, po.timestamp⟩)))

/-- Lag clamp: `brokerOffset - offset`, negative values stored as zero. -/
def clampLag (x : Int) : Int := if x < 0 then 0 else x

/-- Write a new entry at the ring cursor and advance: append, dropping the
oldest entry when the ring is full. -/
def ringWrite (intervals : Nat) (es : ConsumerRing) (e : ConsumerOffset) : ConsumerRing :=
  if es.length < intervals then es ++ [e] else es.tail ++ [e]

/-- `addConsumerOffset`. `none` models a runtime panic.

Silent drops (`some st`, state unchanged): unknown cluster, blacklisted,
unknown topic, negative partition, partition at least the broker vector
length, absent broker slot, no-advance commits, and rate-limited commits.
When the pre-existing consumer topic vector is shorter than the partition
index, the growth loop appends only to the local slice, so the created ring
and the written commit are lost: the stored state is unchanged. -/
def addConsumerOffset (cfg : Config) (st : OffsetStorage) (po : PartitionOffset) :
    Option OffsetStorage :=
  match alookup st.offsets po.cluster with
  | none => some st
  | some cl =>
    if cfg.groupBlacklist po.group || cfg.topicBlacklist po.topic then some st
    else
      match alookup cl.broker po.topic with
      | none => some st
      | some bvec =>
        if po.partition < 0 then some st
        else if (bvec.length : Int) ≤ po.partition then some st
        else
          match bvec[po.partition.toNat]? with
          | none => some st
          | some none => some st
          | some (some bo) =>
            let partitionCount := bvec.length
            let gm := (alookup cl.consumer po.group).getD []
            let vec := (alookup gm po.topic).getD (List.replicate partitionCount none)
            let p := po.partition.toNat
            if vec.length ≤ p then
              some st
            else
              match vec[p]? with
              | none => some st
              | some slot =>
                match slot with
                | none =>
                  let entry : ConsumerOffset :=
                    ⟨po.offset, po.timestamp, clampLag (bo.offset - po.offset), false⟩
                  some (setConsumerVec st po.cluster cl po.group gm po.topic
                    (vec.set p (some [entry])))
                | some es =>
                  match es.getLast? with
                  | none => none
                  | some last =>
                    let tsdiff := po.timestamp - last.timestamp
                    if tsdiff ≤ 0 ∧ po.offset ≤ last.offset then some st
                    else if last.artificial = false ∧ 0 ≤ tsdiff ∧
                        tsdiff < cfg.minDistance * 1000 then some st
                    else
                      let entry : ConsumerOffset :=
                        ⟨po.offset, po.timestamp, clampLag (bo.offset - po.offset), false⟩
                      some (setConsumerVec st po.cluster cl po.group gm po.topic
                        (vec.set p (some (ringWrite cfg.intervals es entry))))

/-- `dropGroup`. Looking up an unknown cluster yields a nil `*ClusterOffsets`, and
`storage.offsets[cluster].consumerLock.Lock()` dereferences it: `none` (panic). -/
def dropGroup (st : OffsetStorage) (cluster group : String) :
    Option (StatusConstant × OffsetStorage) :=
  match alookup st.offsets cluster with
  | none => none
  | some cl =>
    match alookup cl.consumer group with
    | some _ =>
      some (.ok, updateCluster st cluster { cl with consumer := aerase cl.consumer group })
    | none => some (.notfound, st)

/-- One reported partition (`PartitionStatus`). `endOff` is the Go field `End`. -/
structure PartitionStatus where
  topic : String
  partition : Nat
  status : StatusConstant
  start : ConsumerOffset
  endOff : ConsumerOffset
deriving DecidableEq, Repr

/-- The evaluator's reply (`ConsumerGroupStatus`). `totalLag` is a Go `uint64`,
modelled as a natural number reduced mod `2 ^ 64`. -/
structure ConsumerGroupStatus where
  cluster : String
  group : String
  status : StatusConstant
  complete : Bool
  partitions : List PartitionStatus
  totalPartitions : Nat
  maxlag : Option PartitionStatus
  totalLag : Nat
deriving DecidableEq, Repr

/-- Broker vector for a topic; an absent map key is Go's nil slice, i.e. `[]`. -/
def getBvec (broker : List (String × List (Option BrokerOffset))) (t : String) :
    List (Option BrokerOffset) :=
  (alookup broker t).getD []

/-- The artificial commit injected by the evaluator for a caught-up partition. -/
def mkArtificial (last : ConsumerOffset) (nowSec : Int) : ConsumerOffset :=
  ⟨last.offset, nowSec * 1000, 0, true⟩

/-- Snapshot one ring slot during evaluation (phase A, under the consumer lock).

A nil ring, or a ring whose cursor slot is still unwritten (not yet full), is
skipped: snapshot `[]`. A full ring first reads the broker offset
`clusterMap.broker[topic][partition]` unguarded, so an absent topic vector, a
short vector, or a nil slot panics (`none`); if the last commit has caught up
with the broker offset, an artificial zero-lag commit is written at the cursor
and the cursor advanced. The snapshot is the full chronological ring. -/
def snapSlot (cfg : Config) (nowSec : Int) (bvec : List (Option BrokerOffset)) (i : Nat) :
    Option ConsumerRing → Option (Option ConsumerRing × List ConsumerOffset)
  | none => some (none, [])
  | some es =>
    if es.length < cfg.intervals then some (some es, [])
    else
      match es.getLast? with
      | none => none
      | some last =>
        match bvec[i]? with
        | none => none
        | some none => none
        | some (some bo) =>
          if last.offset ≥ bo.offset then
            let es2 := es.tail ++ [mkArtificial last nowSec]
            some (some es2, es2)
          else some (some es, es)

/-- Snapshot a topic's ring vector, tracking the partition index. -/
def snapVec (cfg : Config) (nowSec : Int) (bvec : List (Option BrokerOffset)) :
    Nat → List (Option ConsumerRing) →
    Option (List (Option ConsumerRing) × List (List ConsumerOffset))
  | _, [] => some ([], [])
  | i, slot :: rest =>
    match snapSlot cfg nowSec bvec i slot with
    | none => none
    | some (slot2, snap) =>
      match snapVec cfg nowSec bvec (i + 1) rest with
      | none => none
      | some (rest2, snaps) => some (slot2 :: rest2, snap :: snaps)

/-- Snapshot all topics of a group (phase A). Returns the mutated group map
(with injected artificial commits) and the local offset snapshots. -/
def snapGroup (cfg : Config) (nowSec : Int)
    (broker : List (String × List (Option BrokerOffset))) :
    List (String × List (Option ConsumerRing)) →
    Option (List (String × List (Option ConsumerRing)) ×
      List (String × List (List ConsumerOffset)))
  | [] => some ([], [])
  | (t, vec) :: rest =>
    match snapVec cfg nowSec (getBvec broker t) 0 vec with
    | none => none
    | some (vec2, snaps) =>
      match snapGroup cfg nowSec broker rest with
      | none => none
      | some (rest2, rsnaps) => some ((t, vec2) :: rest2, (t, snaps) :: rsnaps)

/-- A slot the snapshot phase skips: nil ring, or cursor slot still unwritten. -/
def skippedSlot (cfg : Config) : Option ConsumerRing → Bool
  | none => true
  | some es => decide (es.length < cfg.intervals)

/-- Youngest-offset tracking: running maximum of timestamps, starting at 0. -/
def youngerTs (a : Int) (e : ConsumerOffset) : Int :=
  if e.timestamp > a then e.timestamp else a

/-- Maximum timestamp across all snapshot entries (0 when there are none). -/
def youngestOf (snaps : List (String × List (List ConsumerOffset))) : Int :=
  snaps.foldl (fun a tp => tp.2.foldl (fun b l => l.foldl youngerTs b) a) 0

/-- Group-status escalation performed while evaluating one partition. -/
inductive Esc where
  | keep
  | err
  | warnIfOk
deriving DecidableEq, Repr

/-- Apply an escalation to the running group status (`StatusError` is assigned
unconditionally; `StatusWarning` only when the running status is still OK). -/
def applyEsc (s : StatusConstant) : Esc → StatusConstant
  | .keep => s
  | .err => .error
  | .warnIfOk => if s = .ok then .warning else s

/-- Number of indices `i ≥ 1` with `offsets[i].offset < offsets[i-1].offset`
(each one triggers an append in the Rule 6 inner loop). -/
def rewindCount : List ConsumerOffset → Nat
  | a :: b :: rest => (if b.offset < a.offset then 1 else 0) + rewindCount (b :: rest)
  | _ => 0

/-- Whether some adjacent pair has strictly decreasing lag. -/
def pairDrop : List ConsumerOffset → Bool
  | a :: b :: rest => decide (b.lag < a.lag) || pairDrop (b :: rest)
  | _ => false

/-- The Rule 3 scan: some entry has zero lag, or the lag dropped somewhere. -/
def lagDropped (l : List ConsumerOffset) : Bool :=
  l.any (fun e => decide (e.lag = 0)) || pairDrop l

/-- Rule outcome for one partition: final partition status, number of times the
(shared, in-place mutated) `PartitionStatus` pointer is appended, and the group
status escalation.

This mirrors the source control flow, including the Rule 6 quirk: the `continue`
in the rewind scan only continues the inner loop, so the partition is appended
once per rewind index and evaluation falls through to Rules 1/2/3, which may
overwrite the partition status; every appended copy aliases the same pointer
and therefore shows the final status. -/
def partDecision (showall : Bool) (nowSec : Int) (f l : ConsumerOffset)
    (offsets : List ConsumerOffset) : StatusConstant × Nat × Esc :=
  if nowSec * 1000 - l.timestamp > l.timestamp - f.timestamp then
    (.stop, 1, .err)
  else
    let r := rewindCount offsets
    let rst : StatusConstant := if r > 0 then .rewind else .ok
    let resc : Esc := if r > 0 then .err else .keep
    let saExtra : Nat := if showall then 1 else 0
    if l.lag = 0 then (rst, r + saExtra, resc)
    else if l.offset = f.offset then
      if f.lag = 0 then (rst, r + saExtra, resc)
      else (.stall, r + 1, .err)
    else
      if f.lag = 0 ∨ l.lag ≤ f.lag then (rst, r + saExtra, resc)
      else if lagDropped offsets then
        (rst, r + (if r > 0 ∨ showall then 1 else 0), resc)
      else
        (.warning, r + 1, if r > 0 then .err else .warnIfOk)

/-- Accumulator of the rule phase (phase B). -/
structure EvalAcc where
  status : StatusConstant
  complete : Bool
  partitions : List PartitionStatus
  maxlagVal : Int
  maxlag : Option PartitionStatus
  totalLag : Nat
deriving DecidableEq, Repr

/-- Evaluate one partition snapshot (phase B). -/
def evalPartB (showall : Bool) (nowSec : Int) (topic : String) (pIdx : Nat)
    (offsets : List ConsumerOffset) (acc : EvalAcc) : EvalAcc :=
  match offsets with
  | [] => acc
  | f :: rest =>
    let l := (f :: rest).getLast (List.cons_ne_nil f rest)
    if f.lag = -1 then { acc with complete := false }
    else
      let d := partDecision showall nowSec f l (f :: rest)
      let final : PartitionStatus := ⟨topic, pIdx, d.1, f, l⟩
      { status := applyEsc acc.status d.2.2
        complete := acc.complete
        partitions := acc.partitions ++ List.replicate d.2.1 final
        maxlagVal := if l.lag > acc.maxlagVal then l.lag else acc.maxlagVal
        maxlag := if l.lag > acc.maxlagVal then some final else acc.maxlag
        totalLag := (acc.totalLag + (l.lag % (2 : Int) ^ 64).toNat) % 2 ^ 64 }

/-- Evaluate a topic's partition snapshots in index order. -/
def evalVecB (showall : Bool) (nowSec : Int) (topic : String) :
    Nat → List (List ConsumerOffset) → EvalAcc → EvalAcc
  | _, [], acc => acc
  | i, o :: rest, acc =>
    evalVecB showall nowSec topic (i + 1) rest (evalPartB showall nowSec topic i o acc)

/-- Evaluate all topic snapshots (phase B). -/
def evalSnapsB (showall : Bool) (nowSec : Int) :
    List (String × List (List ConsumerOffset)) → EvalAcc → EvalAcc
  | [], acc => acc
  | (t, plist) :: rest, acc =>
    evalSnapsB showall nowSec rest (evalVecB showall nowSec t 0 plist acc)

/-- `evaluateGroup`: the full group evaluation. `nowSec` is `time.Now().Unix()`.
Returns the reply and the post-evaluation storage; `none` models a panic. -/
def evaluateGroup (cfg : Config) (st : OffsetStorage) (cluster group : String)
    (showall : Bool) (nowSec : Int) : Option (ConsumerGroupStatus × OffsetStorage) :=
  let s0 : ConsumerGroupStatus := ⟨cluster, group, .notfound, true, [], 0, none, 0⟩
  match alookup st.offsets cluster with
  | none => some (s0, st)
  | some cl =>
    match alookup cl.consumer group with
    | none => some (s0, st)
    | some gm =>
      match snapGroup cfg nowSec cl.broker gm with
      | none => none
      | some (gm2, snaps) =>
        let totalP := (gm.map (fun tv => tv.2.length)).sum
        let completeA := !(gm.any (fun tv => tv.2.any (skippedSlot cfg)))
        let youngest := youngestOf snaps
        if youngest > 0 ∧ youngest < (nowSec - cfg.expireGroup) * 1000 then
          some ({ s0 with complete := completeA, totalPartitions := totalP },
            updateCluster st cluster { cl with consumer := aerase cl.consumer group })
        else
          let acc := evalSnapsB showall nowSec snaps
            { status := .ok, complete := completeA, partitions := [],
              maxlagVal := 0, maxlag := none, totalLag := 0 }
          some ({ cluster := cluster, group := group, status := acc.status,
                  complete := acc.complete, partitions := acc.partitions,
                  totalPartitions := totalP, maxlag := acc.maxlag,
                  totalLag := acc.totalLag },
            updateCluster st cluster { cl with consumer := aupdate cl.consumer group gm2 })

/-- The `requestClusterList` handler body: the keys of the `offsets` map. -/
def requestClusterList (st : OffsetStorage) : List String :=
  st.offsets.map Prod.fst

/-- The request variants carried on the request channel. -/
inductive StorageRequest where
  | clusterList
  | consumerList
  | topicList
  | offsetsReq
  | consumerStatus
  | consumerDrop
deriving DecidableEq, Repr

/-- The handlers a request can be dispatched to. -/
inductive HandlerId where
  | handleClusterList
  | handleConsumerList
  | handleTopicList
  | handleOffsets
  | handleConsumerStatus
  | handleConsumerDrop
deriving DecidableEq, Repr

/-- The storage actor's type switch over the request channel
(`NewOffsetStorage`): it has cases for `RequestConsumerList`,
`RequestTopicList`, `RequestOffsets`, `RequestConsumerStatus` and
`RequestConsumerDrop`; `RequestClusterList` has no case and falls into the
`default` branch, which silently drops the request (`none`). -/
def dispatchRequest : StorageRequest → Option HandlerId
  | .consumerList => some .handleConsumerList
  | .topicList => some .handleTopicList
  | .offsetsReq => some .handleOffsets
  | .consumerStatus => some .handleConsumerStatus
  | .consumerDrop => some .handleConsumerDrop
  | .clusterList => none

/-- Events that mutate the storage (offset ingress, evaluation, group drop). -/
inductive StorageEvent where
  | obs (po : PartitionOffset)
  | statusReq (cluster group : String) (showall : Bool) (nowSec : Int)
  | dropReq (cluster group : String)

/-- One dispatch step of the storage actor; an offset with an empty group goes
to broker ingest, otherwise to consumer ingest. -/
def step (cfg : Config) (st : OffsetStorage) : StorageEvent → Option OffsetStorage
  | .obs po =>
    if po.group = "" then addBrokerOffset st po else addConsumerOffset cfg st po
  | .statusReq c g sa n => (evaluateGroup cfg st c g sa n).map Prod.snd
  | .dropReq c g => (dropGroup st c g).map Prod.snd

/-- The empty per-cluster state built at construction. -/
def emptyCluster : ClusterOffsets := ⟨[], []⟩

/-- `NewOffsetStorage`: one empty `ClusterOffsets` per configured cluster. -/
def initStorage (cfg : Config) : OffsetStorage :=
  ⟨cfg.clusters.map (fun c => (c, emptyCluster))⟩

/-- Run a list of events from a given state; `none` once any step panics. -/
def runFrom (cfg : Config) (st : OffsetStorage) : List StorageEvent → Option OffsetStorage
  | [] => some st
  | e :: rest =>
    match step cfg st e with
    | none => none
    | some st2 => runFrom cfg st2 rest

/-- Run a list of events from the freshly constructed storage. -/
def runEvents (cfg : Config) (evs : List StorageEvent) : Option OffsetStorage :=
  runFrom cfg (initStorage cfg) evs

/-- Ring lookup at (cluster, group, topic, partition), for stating results. -/
def lookupRing (st : OffsetStorage) (c g t : String) (p : Nat) : Option ConsumerRing :=
  match alookup st.offsets c with
  | none => none
  | some cl =>
    match alookup cl.consumer g with
    | none => none
    | some gm =>
      match alookup gm t with
      | none => none
      | some vec => vec[p]?.getD none

/-- Configuration of spec scenario 1: `intervals = 5`, `min_distance = 0`,
one cluster named `local`, no blacklists. -/
def cfgScenario1 : Config := ⟨5, 0, 604800, fun _ => false, fun _ => false, ["local"]⟩

/-- Spec scenario 1: broker `(T, p0, offset 100, ts 1000)`, then one accepted
commit by group `G` of `(offset 100, ts 1100)`. -/
def evsScenario1 : List StorageEvent :=
  [.obs ⟨"local", "T", 0, 100, 1000, "", 1⟩,
   .obs ⟨"local", "T", 0, 100, 1100, "G", 0⟩]

/-- A small test configuration: `intervals = 3`, `min_distance = 0`, one
cluster named `c`, no blacklists. -/
def cfgSmall : Config := ⟨3, 0, 604800, fun _ => false, fun _ => false, ["c"]⟩

/-- A rewound, still-lagging history: broker 200, commits `(100, ts 1000)` and
`(50, ts 2000)`, broker moves to 270, commit `(120, ts 3000)`. The ring fills
with lags `100, 150, 150` and offsets `100, 50, 120` (one rewind pair). -/
def evsRewindFall : List StorageEvent :=
  [.obs ⟨"c", "T", 0, 200, 500, "", 1⟩,
   .obs ⟨"c", "T", 0, 100, 1000, "g", 0⟩,
   .obs ⟨"c", "T", 0, 50, 2000, "g", 0⟩,
   .obs ⟨"c", "T", 0, 270, 2500, "", 1⟩,
   .obs ⟨"c", "T", 0, 120, 3000, "g", 0⟩]

/-- The partition record the rewound-history evaluation reports (twice): the
rewind is relabelled `WARNING` by the Rule 3 fall-through. -/
def partWarnTwice : PartitionStatus :=
  ⟨"T", 0, .warning, ⟨100, 1000, 100, false⟩, ⟨120, 3000, 150, false⟩⟩

/-- Two broker observations for one topic: partition count 1, then 2. -/
def evsGrowthLost : List StorageEvent :=
  [.obs ⟨"c", "T", 0, 100, 1000, "", 1⟩,
   .obs ⟨"c", "T", 1, 7, 2000, "", 2⟩]

/-- History for the evaluation-idempotence counterexample: broker 100, commits
`(100, ts 1000)`, `(120, ts 2000)`, `(90, ts 3000)` (a rewind), then the broker
drops to 80, so the last commit counts as caught up and triggers artificial
injection. -/
def evsIdem : List StorageEvent :=
  [.obs ⟨"c", "T", 0, 100, 500, "", 1⟩,
   .obs ⟨"c", "T", 0, 100, 1000, "g", 0⟩,
   .obs ⟨"c", "T", 0, 120, 2000, "g", 0⟩,
   .obs ⟨"c", "T", 0, 90, 3000, "g", 0⟩,
   .obs ⟨"c", "T", 0, 80, 4000, "", 1⟩]

/-- The state reached by `evsIdem`. -/
def stIdem : OffsetStorage := (runEvents cfgSmall evsIdem).getD (initStorage cfgSmall)

/-- The state reached by `evsRewindFall`. -/
def stRewindFall : OffsetStorage :=
  (runEvents cfgSmall evsRewindFall).getD (initStorage cfgSmall)

/-- The monotonicity relation between two successive ring entries: the pair is
exempt when either entry is artificial; otherwise the timestamp or the offset
must strictly increase. -/
def relB (a b : ConsumerOffset) : Bool :=
  a.artificial || b.artificial ||
    decide (b.timestamp > a.timestamp) || decide (b.offset > a.offset)

/-- A chronological ring history is monotonic when every adjacent pair
satisfies `relB`. -/
def ringMonoB : List ConsumerOffset → Bool
  | a :: b :: rest => relB a b && ringMonoB (b :: rest)
  | _ => true

/-- Claim C6's invariant: every stored consumer ring is monotonic. -/
def RingMonoInv (st : OffsetStorage) : Prop :=
  ∀ c cl, alookup st.offsets c = some cl →
    ∀ g gm, alookup cl.consumer g = some gm →
      ∀ t vec, alookup gm t = some vec →
        ∀ (p : Nat) (es : ConsumerRing), vec[p]? = some (some es) → ringMonoB es = true

/-- Claim C10's invariant: wherever a consumer ring exists, the cluster's
broker table holds a non-nil `BrokerOffset` at the same (topic, partition). -/
def BrokerSafeInv (st : OffsetStorage) : Prop :=
  ∀ c cl, alookup st.offsets c = some cl →
    ∀ g gm, alookup cl.consumer g = some gm →
      ∀ t vec, alookup gm t = some vec →
        ∀ (p : Nat) (es : ConsumerRing), vec[p]? = some (some es) →
          ∃ bv bo, alookup cl.broker t = some bv ∧ bv[p]? = some (some bo)

/-- The combined inductive invariant on one cluster, quantified over list
membership (so it is stable under map updates and deletions even in the
presence of shadowed association-list entries): every ring is monotonic,
nonempty, and backed by a non-nil broker slot. -/
def ClusterInv (cl : ClusterOffsets) : Prop :=
  ∀ gtv ∈ cl.consumer, ∀ ttv ∈ gtv.2,
    ∀ (p : Nat) (es : ConsumerRing), ttv.2[p]? = some (some es) →
      ringMonoB es = true ∧ es ≠ [] ∧
      ∃ bv bo, alookup cl.broker ttv.1 = some bv ∧ bv[p]? = some (some bo)

/-- The combined inductive invariant on the whole storage. -/
def StateInv (st : OffsetStorage) : Prop := ∀ ccl ∈ st.offsets, ClusterInv ccl.2

/-- The snapshot a slot yields when no artificial commit is injected. -/
def snapOfSlot (cfg : Config) : Option ConsumerRing → List ConsumerOffset
  | none => []
  | some es => if es.length < cfg.intervals then [] else es

/-- The phase-A snapshots of a group when no artificial commit is injected. -/
def snapsOf (cfg : Config) (gm : List (String × List (Option ConsumerRing))) :
    List (String × List (List ConsumerOffset)) :=
  gm.map (fun tv => (tv.1, tv.2.map (snapOfSlot cfg)))

/-- A slot that cannot trigger artificial-commit injection: absent or not-full
rings are skipped, and a full ring must have a last entry strictly behind a
present broker slot. -/
def noInjectSlot (cfg : Config) (bvec : List (Option BrokerOffset)) (i : Nat) :
    Option ConsumerRing → Bool
  | none => true
  | some es =>
    if es.length < cfg.intervals then true
    else
      match es.getLast?, bvec[i]? with
      | some l, some (some bo) => decide (l.offset < bo.offset)
      | _, _ => false

/-- `noInjectSlot` over a topic vector, tracking the partition index. -/
def noInjectVec (cfg : Config) (bvec : List (Option BrokerOffset)) :
    Nat → List (Option ConsumerRing) → Bool
  | _, [] => true
  | i, s :: rest => noInjectSlot cfg bvec i s && noInjectVec cfg bvec (i + 1) rest

/-- `noInjectSlot` over all topics of a group. -/
def noInjectGroup (cfg : Config) (broker : List (String × List (Option BrokerOffset)))
    (gm : List (String × List (Option ConsumerRing))) : Bool :=
  gm.all (fun tv => noInjectVec cfg (getBvec broker tv.1) 0 tv.2)

/-- An evaluation that cannot mutate the stored state: the cluster or group is
absent, or no partition triggers artificial injection and the group's youngest
snapshot timestamp has not expired. -/
def evalStable (cfg : Config) (st : OffsetStorage) (c g : String) (nowSec : Int) : Bool :=
  match alookup st.offsets c with
  | none => true
  | some cl =>
    match alookup cl.consumer g with
    | none => true
    | some gm =>
      noInjectGroup cfg cl.broker gm &&
      !(decide (youngestOf (snapsOf cfg gm) > 0) &&
        decide (youngestOf (snapsOf cfg gm) < (nowSec - cfg.expireGroup) * 1000))

/-- The local (grown) broker vector length `addBrokerOffset` indexes into:
`topic_partition_count` for a fresh topic, otherwise the maximum of the stored
length and `topic_partition_count`. -/
def brokerLocalLen (cl : ClusterOffsets) (po : PartitionOffset) : Int :=
  match alookup cl.broker po.topic with
  | none => po.topicPartitionCount
  | some l =>
    if (l.length : Int) < po.topicPartitionCount then po.topicPartitionCount
    else (l.length : Int)

/-- Configuration with a nonzero `min_distance` (10 seconds), for the
rate-limit claim's witness. -/
def cfgMinDist : Config := ⟨3, 10, 604800, fun _ => false, fun _ => false, ["c"]⟩

/-- A ring whose last entry is artificial, for the rate-limit claim's witness. -/
def ringW7 : ConsumerRing := [⟨100, 1000, 0, false⟩, ⟨100, 6000, 0, true⟩]

/-- A storage with one broker slot and one consumer ring (`ringW7`). -/
def stW7 : OffsetStorage :=
  ⟨[("c", ⟨[("T", [some ⟨100, 500⟩])], [("g", [("T", [some ringW7])])]⟩)]⟩

/-- A commit arriving 5 seconds after `ringW7`'s artificial last entry, inside
the 10-second `min_distance` window. -/
def poW7 : PartitionOffset := ⟨"c", "T", 0, 150, 11000, "g", 0⟩

/-- The state reached by spec scenario 1 (used by the C8 witness: its only
ring is not full, so evaluation injects nothing and mutates nothing). -/
def stScenario1 : OffsetStorage :=
  (runEvents cfgScenario1 evsScenario1).getD (initStorage cfgScenario1)

/-! ### Theorems -/

theorem alookup_mem {α : Type} {l : List (String × α)} {k : String} {v : α}
    (h : alookup l k = some v) : (k, v) ∈ l := by
  induction l with
  | nil => simp [alookup] at h
  | cons hd tl ih =>
    obtain ⟨k0, v0⟩ := hd
    simp only [alookup] at h
    split at h
    · rename_i hk
      obtain rfl : v0 = v := by simpa using h
      subst hk
      exact List.mem_cons_self _ _
    · exact List.mem_cons_of_mem _ (ih h)

theorem mem_aupdate {α : Type} {l : List (String × α)} {k : String} {v : α}
    {x : String × α} (h : x ∈ aupdate l k v) : x ∈ l ∨ x = (k, v) := by
  induction l with
  | nil => simp [aupdate] at h; simp [h]
  | cons hd tl ih =>
    obtain ⟨k0, v0⟩ := hd
    simp only [aupdate] at h
    split at h
    · rename_i hk
      rcases List.mem_cons.mp h with h1 | h1
      · right; rw [h1, hk]
      · left; exact List.mem_cons_of_mem _ h1
    · rcases List.mem_cons.mp h with h1 | h1
      · left; rw [h1]; exact List.mem_cons_self _ _
      · rcases ih h1 with h2 | h2
        · left; exact List.mem_cons_of_mem _ h2
        · right; exact h2

theorem mem_aerase {α : Type} {l : List (String × α)} {k : String}
    {x : String × α} (h : x ∈ aerase l k) : x ∈ l := by
  induction l with
  | nil => simp [aerase] at h
  | cons hd tl ih =>
    obtain ⟨k0, v0⟩ := hd
    simp only [aerase] at h
    split at h
    · exact List.mem_cons_of_mem _ h
    · rcases List.mem_cons.mp h with h1 | h1
      · rw [h1]; exact List.mem_cons_self _ _
      · exact List.mem_cons_of_mem _ (ih h1)

theorem aupdate_self {α : Type} {l : List (String × α)} {k : String} {v : α}
    (h : alookup l k = some v) : aupdate l k v = l := by
  induction l with
  | nil => simp [alookup] at h
  | cons hd tl ih =>
    obtain ⟨k0, v0⟩ := hd
    simp only [alookup] at h
    simp only [aupdate]
    split at h
    · rename_i hk
      obtain rfl : v0 = v := by simpa using h
      simp [hk]
    · rename_i hk
      simp [hk, ih h]

theorem getElem?_replicate_some {α : Type} {n i : Nat} {a b : α}
    (h : (List.replicate n a)[i]? = some b) : b = a := by
  rw [List.getElem?_replicate] at h
  split at h
  · simpa using h.symm
  · simp at h

theorem getElem?_some_lt {α : Type} {l : List α} {i : Nat} {a : α}
    (h : l[i]? = some a) : i < l.length := by
  by_contra hc
  rw [List.getElem?_eq_none (by omega)] at h
  exact Option.noConfusion h

/-- C5 amended: for every ConsumerDrop request whose cluster is configured,
the handler does not fault: if the group is absent it replies NOT_FOUND and
leaves the state unchanged, and if the group is present it deletes the group
and replies OK. (For an unconfigured cluster the handler faults; see the
counterexample.) -/
theorem c5_amended (st : OffsetStorage) (c g : String) (cl : ClusterOffsets)
    (h : alookup st.offsets c = some cl) :
    (dropGroup st c g).isSome = true ∧
    (alookup cl.consumer g = none → dropGroup st c g = some (.notfound, st)) ∧
    (∀ gm, alookup cl.consumer g = some gm →
      dropGroup st c g =
        some (.ok, updateCluster st c { cl with consumer := aerase cl.consumer g })) := by
  unfold dropGroup
  rw [h]
  rcases hg : alookup cl.consumer g with _ | gm <;> simp [hg]

/-- C5 witness: dropping the existing group `g` from the configured cluster
`c` of `stIdem` goes through the amended theorem. -/
theorem c5_witness : (dropGroup stIdem "c" "g").isSome = true :=
  (c5_amended stIdem "c" "g" ((alookup stIdem.offsets "c").getD emptyCluster)
    (by decide)).1

/-- C7: a commit arriving with `0 ≤ Δt < min_distance·1000` against a ring
whose last entry exists, when it passes the no-advance gate, is rate-limited
exactly when the last entry is genuine: a non-artificial last entry makes the
commit a silent drop (state unchanged), while an artificial last entry lifts
the gate and the commit is written at the cursor. -/
theorem c7_rate_limit (cfg : Config) (st : OffsetStorage) (po : PartitionOffset)
    (cl : ClusterOffsets) (bvec : List (Option BrokerOffset)) (bo : BrokerOffset)
    (gm : List (String × List (Option ConsumerRing))) (vec : List (Option ConsumerRing))
    (es : ConsumerRing) (last : ConsumerOffset)
    (hcl : alookup st.offsets po.cluster = some cl)
    (hgb : cfg.groupBlacklist po.group = false)
    (htb : cfg.topicBlacklist po.topic = false)
    (hbv : alookup cl.broker po.topic = some bvec)
    (hp0 : 0 ≤ po.partition)
    (hplen : po.partition < (bvec.length : Int))
    (hslot : bvec[po.partition.toNat]? = some (some bo))
    (hgm : alookup cl.consumer po.group = some gm)
    (hvec : alookup gm po.topic = some vec)
    (hring : vec[po.partition.toNat]? = some (some es))
    (hlast : es.getLast? = some last)
    (hgate : ¬(po.timestamp - last.timestamp ≤ 0 ∧ po.offset ≤ last.offset))
    (hdt0 : 0 ≤ po.timestamp - last.timestamp)
    (hdt : po.timestamp - last.timestamp < cfg.minDistance * 1000) :
    (last.artificial = false → addConsumerOffset cfg st po = some st) ∧
    (last.artificial = true → addConsumerOffset cfg st po =
      some (setConsumerVec st po.cluster cl po.group gm po.topic
        (vec.set po.partition.toNat (some (ringWrite cfg.intervals es
          ⟨po.offset, po.timestamp, clampLag (bo.offset - po.offset), false⟩))))) := by
  have hplt : po.partition.toNat < vec.length := getElem?_some_lt hring
  have hneg : ¬ po.partition < 0 := by omega
  have hlen : ¬ (bvec.length : Int) ≤ po.partition := by omega
  have hvlen : ¬ vec.length ≤ po.partition.toNat := by omega
  unfold addConsumerOffset
  simp only [hcl, hgb, htb, Bool.or_self, Bool.false_eq_true, if_false, hbv,
    if_neg hneg, if_neg hlen, hslot, hgm, Option.getD_some, hvec, if_neg hvlen,
    hring, hlast, if_neg hgate]
  constructor
  · intro hart
    rw [if_pos ⟨hart, hdt0, hdt⟩]
  · intro hart
    rw [if_neg (by simp [hart])]

/-- C7 witness: with `min_distance = 10` seconds, a commit 5 seconds after an
artificial last entry (passing the no-advance gate) is accepted. -/
theorem c7_witness : (addConsumerOffset cfgMinDist stW7 poW7).isSome = true := by
  rw [(c7_rate_limit cfgMinDist stW7 poW7
      ⟨[("T", [some ⟨100, 500⟩])], [("g", [("T", [some ringW7])])]⟩
      [some ⟨100, 500⟩] ⟨100, 500⟩ [("T", [some ringW7])] [some ringW7]
      ringW7 ⟨100, 6000, 0, true⟩ (by decide) (by decide) (by decide) (by decide)
      (by decide) (by decide) (by decide) (by decide) (by decide) (by decide)
      (by decide) (by decide) (by decide) (by decide)).2 rfl]
  rfl

/-- C9 amended: broker offset ingest never surfaces an error for in-range
partitions. An unknown cluster is dropped silently with the state unchanged;
for a known cluster the operation does not fault provided
`0 ≤ partition < max(current stored length, topic_partition_count)`; and when
the topic is present and no growth is needed, the stored slot at `partition`
is overwritten with the observation. -/
theorem c9_amended (st : OffsetStorage) (po : PartitionOffset) :
    (alookup st.offsets po.cluster = none → addBrokerOffset st po = some st) ∧
    (∀ cl, alookup st.offsets po.cluster = some cl →
      0 ≤ po.partition → po.partition < brokerLocalLen cl po →
      (addBrokerOffset st po).isSome = true) ∧
    (∀ cl l, alookup st.offsets po.cluster = some cl →
      alookup cl.broker po.topic = some l →
      0 ≤ po.partition → po.partition < (l.length : Int) →
      po.topicPartitionCount ≤ (l.length : Int) →
      addBrokerOffset st po =
        some (setBroker st po.cluster cl po.topic
          (l.set po.partition.toNat (some ⟨po.offset, po.timestamp⟩)))) := by
  refine ⟨fun h => ?_, fun cl hcl h0 hlt => ?_, fun cl l hcl hl h0 hlt hle => ?_⟩
  · unfold addBrokerOffset
    rw [h]
  · unfold addBrokerOffset
    rcases hb : alookup cl.broker po.topic with _ | l
    · have hbl : brokerLocalLen cl po = po.topicPartitionCount := by
        unfold brokerLocalLen; rw [hb]
      rw [hbl] at hlt
      simp only [hcl, hb]
      rw [if_neg (by omega), if_neg (by omega)]
      rfl
    · have hbl : brokerLocalLen cl po =
          if (l.length : Int) < po.topicPartitionCount then po.topicPartitionCount
          else (l.length : Int) := by
        unfold brokerLocalLen; rw [hb]
      rw [hbl] at hlt
      simp only [hcl, hb]
      by_cases hg : (l.length : Int) < po.topicPartitionCount
      · rw [if_pos hg] at hlt
        rw [if_neg (by rw [if_pos hg]; omega), if_pos hg]
        split <;> rfl
      · rw [if_neg hg] at hlt
        rw [if_neg (by rw [if_neg hg]; omega), if_neg hg]
        rfl
  · unfold addBrokerOffset
    simp only [hcl, hl]
    have hg : ¬ (l.length : Int) < po.topicPartitionCount := by omega
    rw [if_neg (by rw [if_neg hg]; omega), if_neg hg]

theorem snapSlot_stable (cfg : Config) (now : Int) (bvec : List (Option BrokerOffset))
    (i : Nat) (slot : Option ConsumerRing) (h : noInjectSlot cfg bvec i slot = true) :
    snapSlot cfg now bvec i slot = some (slot, snapOfSlot cfg slot) := by
  rcases slot with _ | es
  · rfl
  · simp only [noInjectSlot] at h
    simp only [snapSlot, snapOfSlot]
    by_cases hfull : es.length < cfg.intervals
    · rw [if_pos hfull, if_pos hfull]
    · rw [if_neg hfull] at h
      rw [if_neg hfull, if_neg hfull]
      rcases hl : es.getLast? with _ | l
      · rw [hl] at h; simp at h
      · rcases hb : bvec[i]? with _ | ob
        · rw [hl, hb] at h; simp at h
        · rcases ob with _ | bo
          · rw [hl, hb] at h; simp at h
          · rw [hl, hb] at h
            simp only [decide_eq_true_eq] at h
            simp only [hl, hb]
            rw [if_neg (by omega)]

theorem snapVec_stable (cfg : Config) (now : Int) (bvec : List (Option BrokerOffset)) :
    ∀ (i : Nat) (vec : List (Option ConsumerRing)), noInjectVec cfg bvec i vec = true →
      snapVec cfg now bvec i vec = some (vec, vec.map (snapOfSlot cfg)) := by
  intro i vec
  induction vec generalizing i with
  | nil => intro _; rfl
  | cons s rest ih =>
    intro h
    simp only [noInjectVec, Bool.and_eq_true] at h
    simp only [snapVec]
    rw [snapSlot_stable cfg now bvec i s h.1, ih (i + 1) h.2]
    rfl

theorem snapGroup_stable (cfg : Config) (now : Int)
    (broker : List (String × List (Option BrokerOffset))) :
    ∀ gm, noInjectGroup cfg broker gm = true →
      snapGroup cfg now broker gm = some (gm, snapsOf cfg gm) := by
  intro gm
  induction gm with
  | nil => intro _; rfl
  | cons tv rest ih =>
    intro h
    obtain ⟨t, vec⟩ := tv
    simp only [noInjectGroup, List.all_cons, Bool.and_eq_true] at h
    simp only [snapGroup]
    rw [snapVec_stable cfg now (getBvec broker t) 0 vec h.1, ih h.2]
    rfl

/-- C8 amended: a `ConsumerStatus` evaluation that injects no artificial
commit and does not expire the group (`evalStable`) leaves the stored state
unchanged, and therefore a second evaluation with the same arguments and the
same current time returns the identical reply. (When an artificial commit is
injected the window shifts and the second reply can differ; see the
counterexample.) -/
theorem c8_amended (cfg : Config) (st : OffsetStorage) (c g : String) (sa : Bool)
    (now : Int) (r : ConsumerGroupStatus) (st2 : OffsetStorage)
    (hstable : evalStable cfg st c g now = true)
    (h : evaluateGroup cfg st c g sa now = some (r, st2)) :
    st2 = st ∧ evaluateGroup cfg st2 c g sa now = some (r, st2) := by
  have hst : st2 = st := by
    unfold evalStable at hstable
    unfold evaluateGroup at h
    rcases hcl : alookup st.offsets c with _ | cl
    · simp only [hcl, Option.some.injEq, Prod.mk.injEq] at h
      exact h.2.symm
    · simp only [hcl] at hstable h
      rcases hgm : alookup cl.consumer g with _ | gm
      · simp only [hgm, Option.some.injEq, Prod.mk.injEq] at h
        exact h.2.symm
      · simp only [hgm, Bool.and_eq_true] at hstable
        simp only [hgm, snapGroup_stable cfg now cl.broker gm hstable.1] at h
        have hexp : ¬(youngestOf (snapsOf cfg gm) > 0 ∧
            youngestOf (snapsOf cfg gm) < (now - cfg.expireGroup) * 1000) := by
          intro hcontra
          have h2 := hstable.2
          rw [decide_eq_true hcontra.1, decide_eq_true hcontra.2] at h2
          simp at h2
        rw [if_neg hexp] at h
        simp only [Option.some.injEq, Prod.mk.injEq] at h
        have hsame : updateCluster st c { cl with consumer := aupdate cl.consumer g gm }
            = st := by
          rw [aupdate_self hgm]
          show updateCluster st c cl = st
          unfold updateCluster
          rw [aupdate_self hcl]
        rw [hsame] at h
        exact h.2.symm
  refine ⟨hst, ?_⟩
  subst hst
  exact h

/-- C8 witness: on the single-commit scenario-1 state (ring not full, so no
injection, and nothing expired), evaluation leaves the state unchanged and a
second call returns the identical reply. -/
theorem c8_witness :
    stScenario1 = stScenario1 ∧
    evaluateGroup cfgScenario1 stScenario1 "local" "G" true 2 =
      some (⟨"local", "G", .ok, false, [], 1, none, 0⟩, stScenario1) :=
  c8_amended cfgScenario1 stScenario1 "local" "G" true 2
    ⟨"local", "G", .ok, false, [], 1, none, 0⟩ stScenario1 (by decide) (by decide)

/-- C9 witness: a broker observation for a fresh topic with partition count 3
and partition 1 is in range and succeeds. -/
theorem c9_witness :
    (addBrokerOffset (initStorage cfgSmall) ⟨"c", "U", 1, 10, 1000, "", 3⟩).isSome
      = true :=
  (c9_amended (initStorage cfgSmall) ⟨"c", "U", 1, 10, 1000, "", 3⟩).2.1
    emptyCluster (by decide) (by decide) (by decide)

theorem alookup_aupdate_self {α : Type} (l : List (String × α)) (k : String) (v : α) :
    alookup (aupdate l k v) k = some v := by
  induction l with
  | nil => simp [alookup, aupdate]
  | cons hd tl ih =>
    obtain ⟨k0, v0⟩ := hd
    simp only [aupdate]
    split
    · rename_i hk; simp [alookup, hk]
    · rename_i hk; simp [alookup, hk, ih]

theorem alookup_aupdate_ne {α : Type} (l : List (String × α)) (k k2 : String) (v : α)
    (h : k ≠ k2) : alookup (aupdate l k v) k2 = alookup l k2 := by
  induction l with
  | nil => simp [alookup, aupdate, h]
  | cons hd tl ih =>
    obtain ⟨k0, v0⟩ := hd
    simp only [aupdate]
    split
    · rename_i hk; subst hk; simp [alookup, h]
    · simp only [alookup, ih]

theorem ringMonoB_tail (a : ConsumerOffset) (l : List ConsumerOffset)
    (h : ringMonoB (a :: l) = true) : ringMonoB l = true := by
  cases l with
  | nil => rfl
  | cons b t =>
    simp only [ringMonoB, Bool.and_eq_true] at h
    exact h.2

theorem ringMonoB_snoc (es : List ConsumerOffset) (e : ConsumerOffset)
    (h : ringMonoB es = true)
    (hrel : ∀ x, es.getLast? = some x → relB x e = true) :
    ringMonoB (es ++ [e]) = true := by
  induction es with
  | nil => rfl
  | cons a t ih =>
    cases t with
    | nil =>
      simp only [List.cons_append, List.nil_append, ringMonoB, Bool.and_eq_true]
      exact ⟨hrel a rfl, trivial⟩
    | cons b t2 =>
      simp only [ringMonoB, Bool.and_eq_true] at h
      have ih2 := ih h.2 (fun x hx => hrel x (by rw [List.getLast?_cons_cons]; exact hx))
      simp only [List.cons_append] at ih2 ⊢
      simp only [ringMonoB, Bool.and_eq_true]
      exact ⟨h.1, ih2⟩

theorem ringMonoB_ringWrite (n : Nat) (es : List ConsumerOffset) (e : ConsumerOffset)
    (h : ringMonoB es = true)
    (hrel : ∀ x, es.getLast? = some x → relB x e = true) :
    ringMonoB (ringWrite n es e) = true := by
  unfold ringWrite
  split
  · exact ringMonoB_snoc es e h hrel
  · cases es with
    | nil => rfl
    | cons a t =>
      refine ringMonoB_snoc t e (ringMonoB_tail a t h) (fun x hx => hrel x ?_)
      cases t with
      | nil => simp at hx
      | cons b t2 => rw [List.getLast?_cons_cons]; exact hx

theorem ringWrite_ne_nil (n : Nat) (es : List ConsumerOffset) (e : ConsumerOffset) :
    ringWrite n es e ≠ [] := by
  unfold ringWrite
  split <;> simp

theorem relB_artificial (x last : ConsumerOffset) (now : Int) :
    relB x (mkArtificial last now) = true := by
  simp [relB, mkArtificial]

theorem ringMonoB_inject (es : List ConsumerOffset) (last : ConsumerOffset) (now : Int)
    (h : ringMonoB es = true) :
    ringMonoB (es.tail ++ [mkArtificial last now]) = true := by
  cases es with
  | nil => rfl
  | cons a t =>
    exact ringMonoB_snoc t (mkArtificial last now) (ringMonoB_tail a t h)
      (fun x _ => relB_artificial x last now)

theorem snapSlot_rel (cfg : Config) (now : Int) (bvec : List (Option BrokerOffset))
    (i : Nat) (slot slot2 : Option ConsumerRing) (snap : List ConsumerOffset)
    (h : snapSlot cfg now bvec i slot = some (slot2, snap)) :
    slot2 = slot ∨
      ∃ es l, slot = some es ∧ slot2 = some (es.tail ++ [mkArtificial l now]) := by
  rcases slot with _ | es
  · left
    simp only [snapSlot, Option.some.injEq, Prod.mk.injEq] at h
    exact h.1.symm
  · simp only [snapSlot] at h
    split at h
    · left
      simp only [Option.some.injEq, Prod.mk.injEq] at h
      exact h.1.symm
    · rcases hl : es.getLast? with _ | l
      · simp [hl] at h
      · rcases hb : bvec[i]? with _ | ob
        · simp [hl, hb] at h
        · rcases ob with _ | bo
          · simp [hl, hb] at h
          · simp only [hl, hb] at h
            split at h
            · right
              simp only [Option.some.injEq, Prod.mk.injEq] at h
              exact ⟨es, l, rfl, h.1.symm⟩
            · left
              simp only [Option.some.injEq, Prod.mk.injEq] at h
              exact h.1.symm

theorem snapVec_rel (cfg : Config) (now : Int) (bvec : List (Option BrokerOffset)) :
    ∀ (i : Nat) (vec vec2 : List (Option ConsumerRing)) (snaps : List (List ConsumerOffset)),
      snapVec cfg now bvec i vec = some (vec2, snaps) →
      ∀ (j : Nat) (s2 : Option ConsumerRing), vec2[j]? = some s2 →
        ∃ s1, vec[j]? = some s1 ∧
          (s2 = s1 ∨ ∃ es l, s1 = some es ∧ s2 = some (es.tail ++ [mkArtificial l now])) := by
  intro i vec
  induction vec generalizing i with
  | nil =>
    intro vec2 snaps h j s2 hj
    simp only [snapVec, Option.some.injEq, Prod.mk.injEq] at h
    rw [← h.1] at hj
    simp at hj
  | cons s rest ih =>
    intro vec2 snaps h j s2 hj
    rcases hs : snapSlot cfg now bvec i s with _ | p1
    · simp [snapVec, hs] at h
    · obtain ⟨sl2, snap⟩ := p1
      rcases hr : snapVec cfg now bvec (i + 1) rest with _ | p2
      · simp [snapVec, hs, hr] at h
      · obtain ⟨rest2, snaps2⟩ := p2
        simp only [snapVec, hs, hr, Option.some.injEq, Prod.mk.injEq] at h
        rw [← h.1] at hj
        cases j with
        | zero =>
          have hs2 : sl2 = s2 := by simpa using hj
          subst hs2
          exact ⟨s, by simp, snapSlot_rel cfg now bvec i s sl2 snap hs⟩
        | succ m =>
          obtain ⟨s1, hs1, hrel⟩ := ih (i + 1) rest2 snaps2 hr m s2 (by simpa using hj)
          exact ⟨s1, by simpa using hs1, hrel⟩

theorem snapGroup_rel (cfg : Config) (now : Int)
    (broker : List (String × List (Option BrokerOffset))) :
    ∀ (gm gm2 : List (String × List (Option ConsumerRing)))
      (snaps : List (String × List (List ConsumerOffset))),
      snapGroup cfg now broker gm = some (gm2, snaps) →
      ∀ tv2 ∈ gm2, ∃ vec1, (tv2.1, vec1) ∈ gm ∧
        ∀ (j : Nat) (s2 : Option ConsumerRing), tv2.2[j]? = some s2 →
          ∃ s1, vec1[j]? = some s1 ∧
            (s2 = s1 ∨ ∃ es l, s1 = some es ∧ s2 = some (es.tail ++ [mkArtificial l now])) := by
  intro gm
  induction gm with
  | nil =>
    intro gm2 snaps h tv2 htv
    simp only [snapGroup, Option.some.injEq, Prod.mk.injEq] at h
    rw [← h.1] at htv
    simp at htv
  | cons tv rest ih =>
    intro gm2 snaps h tv2 htv
    obtain ⟨t, vec⟩ := tv
    rcases hv : snapVec cfg now (getBvec broker t) 0 vec with _ | p1
    · simp [snapGroup, hv] at h
    · obtain ⟨vec2, snaps1⟩ := p1
      rcases hr : snapGroup cfg now broker rest with _ | p2
      · simp [snapGroup, hv, hr] at h
      · obtain ⟨rest2, rsnaps⟩ := p2
        simp only [snapGroup, hv, hr, Option.some.injEq, Prod.mk.injEq] at h
        rw [← h.1] at htv
        rcases List.mem_cons.mp htv with h1 | h1
        · refine ⟨vec, ?_, ?_⟩
          · rw [h1]; exact List.mem_cons_self _ _
          · intro j s2 hj
            rw [h1] at hj
            exact snapVec_rel cfg now (getBvec broker t) 0 vec vec2 snaps1 hv j s2 hj
        · obtain ⟨vec1, hmem, hpt⟩ := ih rest2 rsnaps hr tv2 h1
          exact ⟨vec1, List.mem_cons_of_mem _ hmem, hpt⟩

theorem snapVec_isSome (cfg : Config) (now : Int) (bvec : List (Option BrokerOffset)) :
    ∀ (i : Nat) (vec : List (Option ConsumerRing)),
      (∀ (j : Nat) (es : ConsumerRing), vec[j]? = some (some es) →
        es ≠ [] ∧ ∃ bo, bvec[i + j]? = some (some bo)) →
      (snapVec cfg now bvec i vec).isSome = true := by
  intro i vec
  induction vec generalizing i with
  | nil => intro _; rfl
  | cons s rest ih =>
    intro h
    have hslot : (snapSlot cfg now bvec i s).isSome = true := by
      rcases s with _ | es
      · rfl
      · obtain hfull | hfull := Nat.lt_or_ge es.length cfg.intervals
        · simp [snapSlot, if_pos hfull]
        · have hnl : ¬ es.length < cfg.intervals := Nat.not_lt.mpr hfull
          obtain ⟨hne, bo, hbo⟩ := h 0 es (by simp)
          rw [Nat.add_zero] at hbo
          obtain ⟨l, hl⟩ := Option.isSome_iff_exists.mp (List.getLast?_isSome.mpr hne)
          simp only [snapSlot, if_neg hnl, hl, hbo]
          split <;> rfl
    rcases hs : snapSlot cfg now bvec i s with _ | p1
    · rw [hs] at hslot; simp at hslot
    · obtain ⟨sl2, snap⟩ := p1
      have hrest : (snapVec cfg now bvec (i + 1) rest).isSome = true := by
        refine ih (i + 1) (fun j es hj => ?_)
        have hstep := h (j + 1) es (by simpa using hj)
        rwa [show i + (j + 1) = i + 1 + j by omega] at hstep
      rcases hr : snapVec cfg now bvec (i + 1) rest with _ | p2
      · rw [hr] at hrest; simp at hrest
      · obtain ⟨rest2, snaps2⟩ := p2
        simp only [snapVec, hs, hr]
        rfl

theorem clusterInv_updateBroker (cl : ClusterOffsets) (t : String)
    (newVec : List (Option BrokerOffset)) (hinv : ClusterInv cl)
    (hpres : ∀ (p : Nat) (bv : List (Option BrokerOffset)) (bo : BrokerOffset),
      alookup cl.broker t = some bv → bv[p]? = some (some bo) →
      ∃ bo2, newVec[p]? = some (some bo2)) :
    ClusterInv { cl with broker := aupdate cl.broker t newVec } := by
  intro gtv hg ttv ht p es hp
  obtain ⟨hmono, hne, bv, bo, hbv, hbo⟩ := hinv gtv hg ttv ht p es hp
  refine ⟨hmono, hne, ?_⟩
  by_cases hteq : ttv.1 = t
  · rw [hteq] at hbv ⊢
    obtain ⟨bo2, hbo2⟩ := hpres p bv bo hbv hbo
    exact ⟨newVec, bo2, alookup_aupdate_self _ _ _, hbo2⟩
  · refine ⟨bv, bo, ?_, hbo⟩
    rw [alookup_aupdate_ne _ t ttv.1 _ (fun hx => hteq hx.symm)]
    exact hbv

theorem stateInv_addBroker (st st2 : OffsetStorage) (po : PartitionOffset)
    (hinv : StateInv st) (h : addBrokerOffset st po = some st2) : StateInv st2 := by
  unfold addBrokerOffset at h
  rcases hcl : alookup st.offsets po.cluster with _ | cl
  · simp only [hcl, Option.some.injEq] at h
    rw [← h]; exact hinv
  · simp only [hcl] at h
    have hclInv : ClusterInv cl := hinv (po.cluster, cl) (alookup_mem hcl)
    have hsetInv : ∀ newVec,
        (∀ (p : Nat) (bv : List (Option BrokerOffset)) (bo : BrokerOffset),
          alookup cl.broker po.topic = some bv → bv[p]? = some (some bo) →
          ∃ bo2, newVec[p]? = some (some bo2)) →
        StateInv (setBroker st po.cluster cl po.topic newVec) := by
      intro newVec hpres ccl hccl
      rcases mem_aupdate hccl with hold | hnew
      · exact hinv ccl hold
      · rw [hnew]
        exact clusterInv_updateBroker cl po.topic newVec hclInv hpres
    rcases hb : alookup cl.broker po.topic with _ | l
    · simp only [hb] at h
      split at h
      · exact Option.noConfusion h
      · split at h
        · exact Option.noConfusion h
        · simp only [Option.some.injEq] at h
          rw [← h]
          exact hsetInv _ (fun p bv bo hbv => absurd (hb.symm.trans hbv) (by simp))
    · simp only [hb] at h
      have hset : ∀ (p0 : Nat) (e : BrokerOffset),
          (∀ (p : Nat) (bv : List (Option BrokerOffset)) (bo : BrokerOffset),
            alookup cl.broker po.topic = some bv → bv[p]? = some (some bo) →
            ∃ bo2, (l.set p0 (some e))[p]? = some (some bo2)) := by
        intro p0 e p bv bo hbv hbo
        obtain rfl : l = bv := by
          have hx := hb.symm.trans hbv
          simpa using hx
        by_cases hpeq : p0 = p
        · subst hpeq
          have hlt : p0 < l.length := getElem?_some_lt hbo
          exact ⟨e, List.getElem?_set_self hlt⟩
        · refine ⟨bo, ?_⟩
          rw [List.getElem?_set_ne hpeq]
          exact hbo
      by_cases hbound : po.partition < 0 ∨
          (if (l.length : Int) < po.topicPartitionCount then po.topicPartitionCount
            else (l.length : Int)) ≤ po.partition
      · rw [if_pos hbound] at h
        exact Option.noConfusion h
      · rw [if_neg hbound] at h
        by_cases hgrew : (l.length : Int) < po.topicPartitionCount
        · rw [if_pos hgrew] at h
          rcases hLp : l[po.partition.toNat]? with _ | ob
          · simp only [hLp, Option.some.injEq] at h
            rw [← h]; exact hinv
          · rcases ob with _ | e0
            · simp only [hLp, Option.some.injEq] at h
              rw [← h]; exact hinv
            · simp only [hLp, Option.some.injEq] at h
              rw [← h]
              exact hsetInv _ (hset _ _)
        · rw [if_neg hgrew] at h
          simp only [Option.some.injEq] at h
          rw [← h]
          exact hsetInv _ (hset _ _)

theorem stateInv_addConsumer (cfg : Config) (st st2 : OffsetStorage) (po : PartitionOffset)
    (hinv : StateInv st) (h : addConsumerOffset cfg st po = some st2) : StateInv st2 := by
  unfold addConsumerOffset at h
  rcases hcl : alookup st.offsets po.cluster with _ | cl
  · simp only [hcl, Option.some.injEq] at h; rw [← h]; exact hinv
  · simp only [hcl] at h
    have hclInv : ClusterInv cl := hinv (po.cluster, cl) (alookup_mem hcl)
    split at h
    · simp only [Option.some.injEq] at h; rw [← h]; exact hinv
    · rcases hb : alookup cl.broker po.topic with _ | bvec
      · simp only [hb, Option.some.injEq] at h; rw [← h]; exact hinv
      · simp only [hb] at h
        split at h
        · simp only [Option.some.injEq] at h; rw [← h]; exact hinv
        · split at h
          · simp only [Option.some.injEq] at h; rw [← h]; exact hinv
          · rcases hbo : bvec[po.partition.toNat]? with _ | ob
            · simp only [hbo, Option.some.injEq] at h; rw [← h]; exact hinv
            · rcases ob with _ | bo
              · simp only [hbo, Option.some.injEq] at h; rw [← h]; exact hinv
              · simp only [hbo] at h
                generalize hgm : (alookup cl.consumer po.group).getD
                  ([] : List (String × List (Option ConsumerRing))) = gm at h
                generalize hvec : (alookup gm po.topic).getD
                  (List.replicate bvec.length none) = vec at h
                have hgmOld : ∀ ttv ∈ gm, ∀ (p' : Nat) (es' : ConsumerRing),
                    ttv.2[p']? = some (some es') →
                    ringMonoB es' = true ∧ es' ≠ [] ∧
                    ∃ bv bo2, alookup cl.broker ttv.1 = some bv ∧
                      bv[p']? = some (some bo2) := by
                  intro ttv htv p' es' hp'
                  rcases hg0 : alookup cl.consumer po.group with _ | gm0
                  · rw [hg0] at hgm; simp only [Option.getD_none] at hgm
                    rw [← hgm] at htv; simp at htv
                  · rw [hg0] at hgm; simp only [Option.getD_some] at hgm
                    subst hgm
                    exact hclInv (po.group, gm0) (alookup_mem hg0) ttv htv p' es' hp'
                have hvecOld : ∀ (p' : Nat) (es' : ConsumerRing),
                    vec[p']? = some (some es') →
                    ringMonoB es' = true ∧ es' ≠ [] ∧
                    ∃ bv bo2, alookup cl.broker po.topic = some bv ∧
                      bv[p']? = some (some bo2) := by
                  intro p' es' hp'
                  rcases hv0 : alookup gm po.topic with _ | vec0
                  · rw [hv0] at hvec; simp only [Option.getD_none] at hvec
                    rw [← hvec] at hp'
                    exact absurd (getElem?_replicate_some hp') (by simp)
                  · rw [hv0] at hvec; simp only [Option.getD_some] at hvec
                    subst hvec
                    exact hgmOld (po.topic, vec0) (alookup_mem hv0) p' es' hp'
                split at h
                · simp only [Option.some.injEq] at h; rw [← h]; exact hinv
                · rename_i hnotlen
                  have hplen : po.partition.toNat < vec.length := by omega
                  have hnew : ∀ newRing : ConsumerRing,
                      ringMonoB newRing = true → newRing ≠ [] →
                      StateInv (setConsumerVec st po.cluster cl po.group gm po.topic
                        (vec.set po.partition.toNat (some newRing))) := by
                    intro newRing hm hn ccl hccl
                    rcases mem_aupdate hccl with hold | hccl2
                    · exact hinv ccl hold
                    · rw [hccl2]
                      intro gtv hg ttv ht p' es' hp'
                      rcases mem_aupdate hg with hgold | hgnew
                      · exact hclInv gtv hgold ttv ht p' es' hp'
                      · rw [hgnew] at ht
                        rcases mem_aupdate ht with htold | htnew
                        · exact hgmOld ttv htold p' es' hp'
                        · rw [htnew] at hp' ⊢
                          by_cases hpe : po.partition.toNat = p'
                          · subst hpe
                            rw [List.getElem?_set_self hplen] at hp'
                            obtain rfl : newRing = es' := by simpa using hp'
                            exact ⟨hm, hn, bvec, bo, hb, hbo⟩
                          · rw [List.getElem?_set_ne hpe] at hp'
                            exact hvecOld p' es' hp'
                  rcases hring : vec[po.partition.toNat]? with _ | slot
                  · simp only [hring, Option.some.injEq] at h; rw [← h]; exact hinv
                  · rcases slot with _ | es
                    · simp only [hring, Option.some.injEq] at h
                      rw [← h]
                      exact hnew _ rfl (by simp)
                    · simp only [hring] at h
                      rcases hlast : es.getLast? with _ | last
                      · simp only [hlast] at h
                        exact Option.noConfusion h
                      · simp only [hlast] at h
                        split at h
                        · simp only [Option.some.injEq] at h; rw [← h]; exact hinv
                        · rename_i hgate
                          split at h
                          · simp only [Option.some.injEq] at h; rw [← h]; exact hinv
                          · simp only [Option.some.injEq] at h
                            rw [← h]
                            have hesOld := hvecOld po.partition.toNat es hring
                            have hrel : ∀ x, es.getLast? = some x →
                                relB x ⟨po.offset, po.timestamp,
                                  clampLag (bo.offset - po.offset), false⟩ = true := by
                              intro x hx
                              rw [hlast] at hx
                              rw [show x = last from by simpa using hx.symm]
                              unfold relB
                              simp only [Bool.or_eq_true, decide_eq_true_eq]
                              rcases not_and_or.mp hgate with hc | hc
                              · have hts : last.timestamp < po.timestamp := by omega
                                tauto
                              · have hof : last.offset < po.offset := by omega
                                tauto
                            exact hnew _
                              (ringMonoB_ringWrite cfg.intervals es _ hesOld.1 hrel)
                              (ringWrite_ne_nil _ _ _)

theorem snapGroup_isSome (cfg : Config) (now : Int)
    (broker : List (String × List (Option BrokerOffset))) :
    ∀ gm : List (String × List (Option ConsumerRing)),
      (∀ tv ∈ gm, ∀ (j : Nat) (es : ConsumerRing), tv.2[j]? = some (some es) →
        es ≠ [] ∧ ∃ bv bo, alookup broker tv.1 = some bv ∧ bv[j]? = some (some bo)) →
      (snapGroup cfg now broker gm).isSome = true := by
  intro gm
  induction gm with
  | nil => intro _; rfl
  | cons tv rest ih =>
    intro h
    obtain ⟨t, vec⟩ := tv
    have hvec : (snapVec cfg now (getBvec broker t) 0 vec).isSome = true := by
      refine snapVec_isSome cfg now (getBvec broker t) 0 vec (fun j es hj => ?_)
      obtain ⟨hne, bv, bo, hbv, hbo⟩ := h (t, vec) (List.mem_cons_self _ _) j es hj
      refine ⟨hne, bo, ?_⟩
      rw [Nat.zero_add]
      unfold getBvec
      rw [hbv]
      exact hbo
    have hrest : (snapGroup cfg now broker rest).isSome = true :=
      ih (fun tv2 htv => h tv2 (List.mem_cons_of_mem _ htv))
    rcases hv : snapVec cfg now (getBvec broker t) 0 vec with _ | p1
    · rw [hv] at hvec; simp at hvec
    · obtain ⟨vec2, snaps1⟩ := p1
      rcases hr : snapGroup cfg now broker rest with _ | p2
      · rw [hr] at hrest; simp at hrest
      · obtain ⟨rest2, rsnaps⟩ := p2
        simp only [snapGroup, hv, hr]
        rfl



theorem stateInv_evalGroup (cfg : Config) (st : OffsetStorage) (c g : String) (sa : Bool)
    (now : Int) (r : ConsumerGroupStatus) (st2 : OffsetStorage)
    (hinv : StateInv st) (h : evaluateGroup cfg st c g sa now = some (r, st2)) :
    StateInv st2 := by
  unfold evaluateGroup at h
  rcases hcl : alookup st.offsets c with _ | cl
  · simp only [hcl, Option.some.injEq, Prod.mk.injEq] at h
    rw [← h.2]; exact hinv
  · simp only [hcl] at h
    have hclInv : ClusterInv cl := hinv (c, cl) (alookup_mem hcl)
    rcases hgm : alookup cl.consumer g with _ | gm
    · simp only [hgm, Option.some.injEq, Prod.mk.injEq] at h
      rw [← h.2]; exact hinv
    · simp only [hgm] at h
      rcases hsg : snapGroup cfg now cl.broker gm with _ | p1
      · simp [hsg] at h
      · obtain ⟨gm2, snaps⟩ := p1
        simp only [hsg] at h
        split at h
        · simp only [Option.some.injEq, Prod.mk.injEq] at h
          rw [← h.2]
          intro ccl hccl
          rcases mem_aupdate hccl with hold | hnew
          · exact hinv ccl hold
          · rw [hnew]
            intro gtv hg
            exact hclInv gtv (mem_aerase hg)
        · simp only [Option.some.injEq, Prod.mk.injEq] at h
          rw [← h.2]
          intro ccl hccl
          rcases mem_aupdate hccl with hold | hnew
          · exact hinv ccl hold
          · rw [hnew]
            intro gtv hg ttv ht p es hp
            rcases mem_aupdate hg with hgold | hgnew
            · exact hclInv gtv hgold ttv ht p es hp
            · rw [hgnew] at ht
              obtain ⟨vec1, hmem1, hpt⟩ :=
                snapGroup_rel cfg now cl.broker gm gm2 snaps hsg ttv ht
              obtain ⟨s1, hs1, hcase⟩ := hpt p (some es) hp
              rcases hcase with hsame | ⟨es0, l0, hes0, hinj⟩
              · exact hclInv (g, gm) (alookup_mem hgm) (ttv.1, vec1) hmem1 p es
                  (by rw [hs1, ← hsame])
              · obtain rfl : es = es0.tail ++ [mkArtificial l0 now] := by simpa using hinj
                have hold := hclInv (g, gm) (alookup_mem hgm) (ttv.1, vec1) hmem1 p es0
                  (by rw [hs1, hes0])
                exact ⟨ringMonoB_inject es0 l0 now hold.1, by simp, hold.2.2⟩

theorem stateInv_dropGroup (st : OffsetStorage) (c g : String) (r : StatusConstant)
    (st2 : OffsetStorage) (hinv : StateInv st) (h : dropGroup st c g = some (r, st2)) :
    StateInv st2 := by
  unfold dropGroup at h
  rcases hcl : alookup st.offsets c with _ | cl
  · simp [hcl] at h
  · simp only [hcl] at h
    rcases hgm : alookup cl.consumer g with _ | gm
    · simp only [hgm, Option.some.injEq, Prod.mk.injEq] at h
      rw [← h.2]; exact hinv
    · simp only [hgm, Option.some.injEq, Prod.mk.injEq] at h
      rw [← h.2]
      intro ccl hccl
      rcases mem_aupdate hccl with hold | hnew
      · exact hinv ccl hold
      · rw [hnew]
        intro gtv hg
        exact hinv (c, cl) (alookup_mem hcl) gtv (mem_aerase hg)

theorem stateInv_init (cfg : Config) : StateInv (initStorage cfg) := by
  intro ccl hccl
  simp only [initStorage, List.mem_map] at hccl
  obtain ⟨a, _, hccl2⟩ := hccl
  rw [← hccl2]
  intro gtv hg
  simp [emptyCluster] at hg

theorem stateInv_step (cfg : Config) (st st2 : OffsetStorage) (e : StorageEvent)
    (hinv : StateInv st) (h : step cfg st e = some st2) : StateInv st2 := by
  cases e with
  | obs po =>
    simp only [step] at h
    split at h
    · exact stateInv_addBroker st st2 po hinv h
    · exact stateInv_addConsumer cfg st st2 po hinv h
  | statusReq c g sa n =>
    simp only [step] at h
    rcases he : evaluateGroup cfg st c g sa n with _ | p
    · simp [he] at h
    · obtain ⟨r, stx⟩ := p
      simp only [he, Option.map_some'] at h
      obtain rfl : stx = st2 := by simpa using h
      exact stateInv_evalGroup cfg st c g sa n r stx hinv he
  | dropReq c g =>
    simp only [step] at h
    rcases he : dropGroup st c g with _ | p
    · simp [he] at h
    · obtain ⟨r, stx⟩ := p
      simp only [he, Option.map_some'] at h
      obtain rfl : stx = st2 := by simpa using h
      exact stateInv_dropGroup st c g r stx hinv he

theorem stateInv_runFrom (cfg : Config) :
    ∀ (evs : List StorageEvent) (st st2 : OffsetStorage),
      StateInv st → runFrom cfg st evs = some st2 → StateInv st2 := by
  intro evs
  induction evs with
  | nil =>
    intro st st2 hinv h
    simp only [runFrom, Option.some.injEq] at h
    rw [← h]; exact hinv
  | cons e rest ih =>
    intro st st2 hinv h
    rcases hs : step cfg st e with _ | st1
    · simp [runFrom, hs] at h
    · simp only [runFrom, hs] at h
      exact ih st1 st2 (stateInv_step cfg st st1 e hinv hs) h

theorem stateInv_run (cfg : Config) (evs : List StorageEvent) (st : OffsetStorage)
    (h : runEvents cfg evs = some st) : StateInv st :=
  stateInv_runFrom cfg evs (initStorage cfg) st (stateInv_init cfg) h

theorem evaluateGroup_isSome_of_inv (cfg : Config) (st : OffsetStorage)
    (hinv : StateInv st) (c g : String) (sa : Bool) (now : Int) :
    (evaluateGroup cfg st c g sa now).isSome = true := by
  unfold evaluateGroup
  rcases hcl : alookup st.offsets c with _ | cl
  · simp [hcl]
  · simp only [hcl]
    rcases hgm : alookup cl.consumer g with _ | gm
    · simp [hgm]
    · simp only [hgm]
      have hcond : ∀ tv ∈ gm, ∀ (j : Nat) (es : ConsumerRing),
          tv.2[j]? = some (some es) →
          es ≠ [] ∧ ∃ bv bo, alookup cl.broker tv.1 = some bv ∧ bv[j]? = some (some bo) := by
        intro tv htv j es hj
        have hob := hinv (c, cl) (alookup_mem hcl) (g, gm) (alookup_mem hgm) tv htv j es hj
        exact ⟨hob.2.1, hob.2.2⟩
      have hsome := snapGroup_isSome cfg now cl.broker gm hcond
      rcases hsg : snapGroup cfg now cl.broker gm with _ | p1
      · rw [hsg] at hsome; simp at hsome
      · obtain ⟨gm2, snaps⟩ := p1
        simp only [hsg]
        split <;> rfl

/-- C1 counterexample: in spec scenario 1 (intervals 5, min_distance 0, one
broker observation at offset 100 and one accepted commit at offset 100), the
evaluation with `show_all = true` returns status OK and `complete = false` but
an EMPTY partition list, not one `PartitionStatus` entry; and the partition is
skipped even though its ring is present and nonempty (it holds the one
accepted commit), because the snapshot phase skips every ring whose cursor
slot is unwritten, i.e. every ring that is not yet full. -/
theorem c1_counterexample :
    (((runEvents cfgScenario1 evsScenario1).bind fun st =>
        evaluateGroup cfgScenario1 st "local" "G" true 2).map fun p =>
          (p.1.status, p.1.complete, p.1.partitions.length)) = some (.ok, false, 0) ∧
    ((runEvents cfgScenario1 evsScenario1).map fun st => lookupRing st "local" "G" "T" 0) =
      some (some [⟨100, 1100, 0, false⟩]) := by
  decide

/-- C1 amended: in spec scenario 1 the evaluation with `show_all = true`
returns overall status OK, `complete = false`, an empty partition list, one
counted partition, no max-lag partition and zero total lag: the single-commit
partition is skipped by the snapshot phase, which skips a partition whenever
its ring is absent or not yet full (cursor slot unwritten), not only when the
ring is absent or empty. -/
theorem c1_amended_scenario :
    (((runEvents cfgScenario1 evsScenario1).bind fun st =>
        evaluateGroup cfgScenario1 st "local" "G" true 2).map Prod.fst) =
      some ⟨"local", "G", .ok, false, [], 1, none, 0⟩ := by
  decide

/-- C2 (code bug, behaviour at the failing input): on a full ring with offsets
`100, 50, 120` and lags `100, 150, 150` (one rewind pair, not classified STOP),
the evaluator does set the overall status to ERROR, but the `continue` in the
Rule 6 scan only continues the inner loop: the partition is appended once per
rewind index, evaluation falls through to Rules 1-3, Rule 3 overwrites the
status of the shared `*PartitionStatus` with WARNING, and the final append adds
it again - the reply lists the partition twice, both entries WARNING. -/
theorem c2_rewind_fallthrough :
    (((runEvents cfgSmall evsRewindFall).bind fun st =>
        evaluateGroup cfgSmall st "c" "g" false 5).map Prod.fst) =
      some ⟨"c", "g", .error, true, [partWarnTwice, partWarnTwice], 1,
        some partWarnTwice, 150⟩ := by
  decide

/-- C3 (code bug, behaviour at the failing input): the storage actor's type
switch dispatches the five other request variants to their handlers, but has
no case for `RequestClusterList`, so a cluster-list request falls into the
`default` branch and is silently dropped - even though the
`requestClusterList` handler exists and would reply with the cluster names. -/
theorem c3_clusterlist_dropped :
    dispatchRequest .clusterList = none ∧
    dispatchRequest .consumerList = some .handleConsumerList ∧
    dispatchRequest .topicList = some .handleTopicList ∧
    dispatchRequest .offsetsReq = some .handleOffsets ∧
    dispatchRequest .consumerStatus = some .handleConsumerStatus ∧
    dispatchRequest .consumerDrop = some .handleConsumerDrop ∧
    requestClusterList (initStorage cfgSmall) = ["c"] := by
  decide

/-- C4 (code bug, behaviour at the failing input): after a broker observation
with `topic_partition_count = 1` followed by one with
`topic_partition_count = 2` for partition 1, the stored vector still has
length 1 and still holds only the first observation: the growth loop appends
to a local slice variable whose first `append` reallocates (the stored slice
has capacity equal to length), and the grown slice is never written back to
the map, so both the growth and the write to partition 1 are lost. -/
theorem c4_growth_lost :
    runEvents cfgSmall evsGrowthLost =
      some ⟨[("c", ⟨[("T", [some ⟨100, 1000⟩])], []⟩)]⟩ := by
  decide

/-- C5 counterexample: a `ConsumerDrop` request for a cluster that is not
configured does not reply NOT_FOUND - `storage.offsets[cluster]` is a nil
`*ClusterOffsets` and `.consumerLock.Lock()` dereferences it, so the handler
faults (modelled as `none`). -/
theorem c5_counterexample :
    dropGroup (initStorage cfgSmall) "unknown" "g" = none := by
  decide

/-- C8 counterexample: two consecutive `ConsumerStatus` evaluations of the
same (cluster, group, show_all) at the same current time, with no intervening
ingest, disagree: on `stIdem` (a rewound, caught-up history) the first call
reports group status ERROR (rewind) and the second reports OK, because the
first call's artificial-commit injection pushed the older of the two
rewind-pair entries out of the ring. -/
theorem c8_counterexample :
    ((evaluateGroup cfgSmall stIdem "c" "g" false 5).map fun p => p.1.status) =
      some .error ∧
    (((evaluateGroup cfgSmall stIdem "c" "g" false 5).bind fun p =>
        evaluateGroup cfgSmall p.2 "c" "g" false 5).map fun p => p.1.status) =
      some .ok := by
  decide

/-- C6: in every reachable state (any event trace from the freshly
constructed storage that does not panic), every consumer ring is monotonic:
for any two successive entries `a` then `b` where both are non-artificial,
`b.timestamp > a.timestamp` or `b.offset > a.offset`. The property is
preserved by every consumer ingest because the no-advance gate drops any
commit whose timestamp difference is non-positive and whose offset does not
exceed the last entry's, and artificial injection only ever appends an
artificial entry (exempt from the pairwise condition). -/
theorem c6_ring_monotonicity (cfg : Config) (evs : List StorageEvent) (st : OffsetStorage)
    (h : runEvents cfg evs = some st) : RingMonoInv st := by
  have hinv := stateInv_run cfg evs st h
  intro c cl hc g gm hg t vec ht p es hp
  exact (hinv (c, cl) (alookup_mem hc) (g, gm) (alookup_mem hg) (t, vec)
    (alookup_mem ht) p es hp).1

/-- C6 witness: the invariant holds for the concrete state reached by
`evsIdem` (which contains a genuine offset rewind, allowed because the
timestamps advance). -/
theorem c6_witness : RingMonoInv stIdem :=
  c6_ring_monotonicity cfgSmall evsIdem stIdem (by decide)

/-- C10: in every reachable state, wherever a consumer ring exists at
(cluster, group, topic, partition), the cluster's broker table holds a
non-nil `BrokerOffset` at the same (topic, partition) - rings are created
only after the broker slot is observed non-absent and broker entries are
never deleted - and consequently the evaluator's unguarded read of
`clusterMap.broker[topic][partition].Offset` during artificial-commit
injection never faults: `evaluateGroup` returns a reply for every request. -/
theorem c10_broker_slot_present (cfg : Config) (evs : List StorageEvent)
    (st : OffsetStorage) (h : runEvents cfg evs = some st) :
    BrokerSafeInv st ∧
    ∀ (c g : String) (sa : Bool) (now : Int),
      (evaluateGroup cfg st c g sa now).isSome = true := by
  have hinv := stateInv_run cfg evs st h
  constructor
  · intro c cl hc g gm hg t vec ht p es hp
    exact (hinv (c, cl) (alookup_mem hc) (g, gm) (alookup_mem hg) (t, vec)
      (alookup_mem ht) p es hp).2.2
  · intro c g sa now
    exact evaluateGroup_isSome_of_inv cfg st hinv c g sa now

/-- C10 witness: the broker-slot invariant and evaluator totality hold for
the concrete state reached by `evsRewindFall`. -/
theorem c10_witness :
    BrokerSafeInv stRewindFall ∧
    ∀ (c g : String) (sa : Bool) (now : Int),
      (evaluateGroup cfgSmall stRewindFall c g sa now).isSome = true :=
  c10_broker_slot_present cfgSmall evsRewindFall stRewindFall (by decide)

/-- C9 counterexample: broker offset ingest can fault. For a configured
cluster and a fresh topic with `topic_partition_count = 1`, a partition value
of 5 (at least the vector length) makes `topicList[offset.Partition]` index
out of range, and a negative partition likewise: the operation panics
(modelled as `none`) instead of staying in bounds. -/
theorem c9_counterexample :
    runEvents cfgSmall [.obs ⟨"c", "T", 5, 10, 1000, "", 1⟩] = none ∧
    runEvents cfgSmall [.obs ⟨"c", "T", -1, 10, 1000, "", 1⟩] = none := by
  decide

end Burrow
